import Mathlib

/-!
# Normalized propagation operator builders of the DGL sparse notebooks

Shallow embedding of the numerical logic of the three notebooks
(`hgnn.ipynb`, `gcn.ipynb`, `graph_transformer.ipynb`):

* `from_coo` — the sparse 0/1 incidence/adjacency matrix built by
  `dglsp.from_coo(rows, cols)`, as a dense rational matrix whose entry counts
  the occurrences of the index pair in the coordinate lists.
* `sumDim1` / `sumDim0` — `H.sum(1)` (row sums) and `H.sum(0)` (column sums);
  the notebook output cells pin this orientation: for the 11×5 incidence matrix
  `H.sum(1)` prints the 11 node degrees and `H.sum(0)` the 5 hyperedge degrees.
* `hgnnLaplacian` — the operator `D_v_invsqrt @ H @ B @ D_e_inv @ H.T @
  D_v_invsqrt` of `HGNN.__init__`.
* `gcnOperator` — the operator `D_hat_invsqrt @ A_hat @ D_hat_invsqrt` of
  `GCNLayer.forward` with `A_hat = A + I` and `D_hat = diag(A_hat.sum(0))`.
* `bsddmm` / `sparseSoftmax` — the masked attention score and the row-wise
  sparse softmax of `SparseMHA.forward`.

The float operation `d ** -0.5` has an irrational exact value in general, so
the scaling vector is passed as a parameter `s` characterized by `IsInvSqrt`:
`0 ≤ s i` and `(s i) ^ 2 * d i = 1`, which determines `s i` uniquely (it is the
real value `d i ** -0.5` whenever that value is rational).  `d ** -1` is exact
rational inversion.  All other arithmetic in the builders is exact.
-/

namespace DglSparse

open Matrix

/-- `dglsp.from_coo(rows, cols)` over a declared `n × m` shape: the entry at
`(i, j)` is the number of occurrences of the pair `(i, j)` in the coordinate
lists (0 or 1 for the duplicate-free lists used in the notebooks). -/
def from_coo (n m : ℕ) (rows cols : List ℕ) : Matrix (Fin n) (Fin m) ℚ :=
  Matrix.of fun i j => (((rows.zip cols).count (i.val, j.val) : ℕ) : ℚ)

/-- `H.sum(1)`: the vector of row sums (node degrees of an incidence matrix). -/
def sumDim1 {n m : ℕ} (H : Matrix (Fin n) (Fin m) ℚ) : Fin n → ℚ :=
  fun i => ∑ j, H i j

/-- `H.sum(0)`: the vector of column sums (hyperedge degrees). -/
def sumDim0 {n m : ℕ} (H : Matrix (Fin n) (Fin m) ℚ) : Fin m → ℚ :=
  fun j => ∑ i, H i j

/-- `s` is the (unique, nonnegative) value of the float expression `d ** -0.5`:
`s ≥ 0` and `s² · d = 1`. -/
def IsInvSqrt (d s : ℚ) : Prop := 0 ≤ s ∧ s ^ 2 * d = 1

instance (d s : ℚ) : Decidable (IsInvSqrt d s) :=
  inferInstanceAs (Decidable (0 ≤ s ∧ s ^ 2 * d = 1))

/-- The operator of `HGNN.__init__`:
`self.L = D_v_invsqrt @ H @ B @ D_e_inv @ H.T @ D_v_invsqrt`, with
`D_v_invsqrt = dglsp.diag(d_V ** -0.5)` represented by the scaling vector `s`
(tied to `d_V = H.sum(1)` through `IsInvSqrt` in the theorems),
`D_e_inv = dglsp.diag(d_E ** -1)` with `d_E = H.sum(0)`, and
`B = dglsp.identity((n_edges, n_edges))`. -/
def hgnnLaplacian {n m : ℕ} (H : Matrix (Fin n) (Fin m) ℚ) (s : Fin n → ℚ) :
    Matrix (Fin n) (Fin n) ℚ :=
  Matrix.diagonal s * H * (1 : Matrix (Fin m) (Fin m) ℚ) *
    Matrix.diagonal (fun j => (sumDim0 H j)⁻¹) * Hᵀ * Matrix.diagonal s

/-- The operator of `GCNLayer.forward`:
`A_hat = A + I`, `D_hat = dglsp.diag(A_hat.sum(0))`,
`D_hat_invsqrt = D_hat ** -0.5` represented by the scaling vector `s`
(tied to `A_hat.sum(0)` through `IsInvSqrt` in the theorems), and the result is
`D_hat_invsqrt @ A_hat @ D_hat_invsqrt`. -/
def gcnOperator {n : ℕ} (A : Matrix (Fin n) (Fin n) ℚ) (s : Fin n → ℚ) :
    Matrix (Fin n) (Fin n) ℚ :=
  Matrix.diagonal s * (A + 1) * Matrix.diagonal s

/-- The spec's weighted row degree: `degree_row[i] = Σ_j R[i,j] * weight[j]`. -/
def specRowDegree {n m : ℕ} (H : Matrix (Fin n) (Fin m) ℚ) (w : Fin m → ℚ) :
    Fin n → ℚ :=
  fun i => ∑ j, H i j * w j

/-- The spec's hypergraph operator, written from the spec formula
`L = diag(degree_row)^(-1/2) · R · diag(weight) · diag(degree_col)^(-1) · R^T ·
diag(degree_row)^(-1/2)`, the `(-1/2)` power again represented by a scaling
vector `s` tied to `specRowDegree` through `IsInvSqrt` in the theorems. -/
def specHypergraphOperator {n m : ℕ} (H : Matrix (Fin n) (Fin m) ℚ)
    (w : Fin m → ℚ) (s : Fin n → ℚ) : Matrix (Fin n) (Fin n) ℚ :=
  Matrix.diagonal s * H * Matrix.diagonal w *
    Matrix.diagonal (fun j => (sumDim0 H j)⁻¹) * Hᵀ * Matrix.diagonal s

/-! ### Basic facts about the embedding -/

/-- Entry formula of `from_coo`. -/
theorem from_coo_apply (n m : ℕ) (rows cols : List ℕ) (i : Fin n) (j : Fin m) :
    from_coo n m rows cols i j
      = (((rows.zip cols).count (i.val, j.val) : ℕ) : ℚ) := rfl

theorem IsInvSqrt.s_pos {d s : ℚ} (h : IsInvSqrt d s) : 0 < s := by
  rcases h with ⟨h0, h1⟩
  rcases lt_or_eq_of_le h0 with hlt | heq
  · exact hlt
  · exfalso; rw [← heq] at h1; simp at h1

theorem IsInvSqrt.s_ne_zero {d s : ℚ} (h : IsInvSqrt d s) : s ≠ 0 :=
  ne_of_gt h.s_pos

theorem IsInvSqrt.d_ne_zero {d s : ℚ} (h : IsInvSqrt d s) : d ≠ 0 := by
  rintro rfl
  have := h.2
  simp at this

/-- The float value `d ** -0.5` is determined by the `IsInvSqrt`
characterization: two nonnegative square roots of the same inverse agree. -/
theorem isInvSqrt_unique {d s t : ℚ} (hs : IsInvSqrt d s) (ht : IsInvSqrt d t) :
    s = t := by
  have hd : d ≠ 0 := hs.d_ne_zero
  have hsq : s ^ 2 = t ^ 2 := mul_right_cancel₀ hd (hs.2.trans ht.2.symm)
  have hfactor : (s - t) * (s + t) = 0 := by linear_combination hsq
  rcases mul_eq_zero.mp hfactor with h | h
  · exact sub_eq_zero.mp h
  · exfalso
    have := add_pos hs.s_pos ht.s_pos
    rw [h] at this
    exact lt_irrefl 0 this

/-- Entry formula of the `HGNN.__init__` operator. -/
theorem hgnnLaplacian_apply {n m : ℕ} (H : Matrix (Fin n) (Fin m) ℚ)
    (s : Fin n → ℚ) (i j : Fin n) :
    hgnnLaplacian H s i j
      = s i * (∑ k, H i k * (sumDim0 H k)⁻¹ * H j k) * s j := by
  simp only [hgnnLaplacian, Matrix.mul_one]
  rw [Matrix.mul_diagonal, Matrix.mul_apply]
  simp only [Matrix.mul_diagonal, Matrix.diagonal_mul, Matrix.transpose_apply]
  rw [Finset.sum_mul, Finset.mul_sum, Finset.sum_mul]
  exact Finset.sum_congr rfl fun k _ => by ring

/-- Entry formula of the `GCNLayer.forward` operator. -/
theorem gcnOperator_apply {n : ℕ} (A : Matrix (Fin n) (Fin n) ℚ)
    (s : Fin n → ℚ) (i j : Fin n) :
    gcnOperator A s i j = s i * (A i j + if i = j then 1 else 0) * s j := by
  simp [gcnOperator, Matrix.mul_diagonal, Matrix.diagonal_mul,
    Matrix.add_apply, Matrix.one_apply]

/-- Adding the self loops `I` raises every column sum by exactly 1. -/
theorem sumDim0_add_one {n : ℕ} (A : Matrix (Fin n) (Fin n) ℚ) (j : Fin n) :
    sumDim0 (A + 1) j = sumDim0 A j + 1 := by
  simp [sumDim0, Matrix.add_apply, Finset.sum_add_distrib, Matrix.one_apply]

/-- Adding the self loops `I` raises every row sum by exactly 1. -/
theorem sumDim1_add_one {n : ℕ} (A : Matrix (Fin n) (Fin n) ℚ) (i : Fin n) :
    sumDim1 (A + 1) i = sumDim1 A i + 1 := by
  simp [sumDim1, Matrix.add_apply, Finset.sum_add_distrib, Matrix.one_apply]

/-- The spec's weighted row degree with the default uniform weight 1 is the
row sum computed by the code. -/
theorem specRowDegree_one {n m : ℕ} (H : Matrix (Fin n) (Fin m) ℚ) :
    specRowDegree H (fun _ => 1) = sumDim1 H := by
  funext i
  simp [specRowDegree, sumDim1]

/-! ### The literal hypergraph of `hgnn.ipynb` -/

/-- The `nodes` coordinate tensor of the 11×5 example incidence matrix. -/
def hgnnRows : List ℕ := [0, 1, 2, 2, 2, 2, 3, 4, 5, 5, 5, 5, 6, 7, 7, 8, 8, 9, 9, 10]

/-- The `hyperedges` coordinate tensor of the 11×5 example incidence matrix. -/
def hgnnCols : List ℕ := [0, 0, 0, 1, 3, 4, 2, 1, 0, 2, 3, 4, 2, 1, 3, 1, 3, 2, 4, 4]

/-- The 11×5 example incidence matrix `H` of `hgnn.ipynb`. -/
def H11 : Matrix (Fin 11) (Fin 5) ℚ := from_coo 11 5 hgnnRows hgnnCols

/-- Row sums of a `from_coo` matrix reduce to a natural-number count sum. -/
theorem sumDim1_from_coo (n m : ℕ) (rows cols : List ℕ) (i : Fin n) :
    sumDim1 (from_coo n m rows cols) i
      = ((∑ j : Fin m, (rows.zip cols).count (i.val, j.val) : ℕ) : ℚ) := by
  simp [sumDim1, from_coo]

/-- Column sums of a `from_coo` matrix reduce to a natural-number count sum. -/
theorem sumDim0_from_coo (n m : ℕ) (rows cols : List ℕ) (j : Fin m) :
    sumDim0 (from_coo n m rows cols) j
      = ((∑ i : Fin n, (rows.zip cols).count (i.val, j.val) : ℕ) : ℚ) := by
  simp [sumDim0, from_coo]

/-- C5: for the literal 11×5 incidence matrix of `hgnn.ipynb`, the row-sum
degree vector `H.sum(1)` equals `[1,1,4,1,1,4,1,2,2,2,1]` and the column-sum
degree vector `H.sum(0)` equals `[4,4,4,4,4]`, exactly as printed by the
notebook. -/
theorem hgnn_example_degree_vectors :
    sumDim1 H11 = ![1, 1, 4, 1, 1, 4, 1, 2, 2, 2, 1] ∧
      sumDim0 H11 = ![4, 4, 4, 4, 4] := by
  constructor
  · funext i
    fin_cases i <;> · rw [H11, sumDim1_from_coo]; norm_cast
  · funext j
    fin_cases j <;> · rw [H11, sumDim0_from_coo]; norm_cast

/-! ### C1: the HGNN operator equals the spec formula -/

/-- C1: for every incidence relation given as a list of `(row, col)` index
pairs over an `n × m` matrix with every row and column degree at least 1, the
operator built by `HGNN.__init__` equals
`diag(d_V)^(-1/2) · H · B · diag(d_E)^(-1) · Hᵀ · diag(d_V)^(-1/2)` with
uniform hyperedge weight 1 (so `B` is the identity), `d_V` the weighted row
degree and `d_E` the column degree — the code scaling `s` (characterized on
`H.sum(1)`) and the spec scaling `t` (characterized on the weighted row
degree) necessarily coincide, and the two operator expressions are equal. -/
theorem hgnn_operator_matches_spec_formula (n m : ℕ) (rows cols : List ℕ)
    (_hrow : ∀ i, 1 ≤ sumDim1 (from_coo n m rows cols) i)
    (_hcol : ∀ j, 1 ≤ sumDim0 (from_coo n m rows cols) j)
    (s t : Fin n → ℚ)
    (hs : ∀ i, IsInvSqrt (sumDim1 (from_coo n m rows cols) i) (s i))
    (ht : ∀ i, IsInvSqrt
      (specRowDegree (from_coo n m rows cols) (fun _ => 1) i) (t i)) :
    hgnnLaplacian (from_coo n m rows cols) s
      = specHypergraphOperator (from_coo n m rows cols) (fun _ => 1) t := by
  have hst : s = t := by
    funext i
    refine isInvSqrt_unique (hs i) ?_
    have := ht i
    rwa [specRowDegree_one] at this
  rw [hst]
  unfold hgnnLaplacian specHypergraphOperator
  rw [Matrix.diagonal_one]

/-- Witness for C1 at the 1×1 relation `[(0, 0)]`, whose unique degree is 1
and whose scaling vector is the constant 1. -/
theorem hgnn_operator_matches_spec_formula_witness :
    ((∀ i, 1 ≤ sumDim1 (from_coo 1 1 [0] [0]) i) ∧
      (∀ j, 1 ≤ sumDim0 (from_coo 1 1 [0] [0]) j) ∧
      (∀ i, IsInvSqrt (sumDim1 (from_coo 1 1 [0] [0]) i)
        ((fun _ => (1 : ℚ)) i)) ∧
      (∀ i, IsInvSqrt
        (specRowDegree (from_coo 1 1 [0] [0]) (fun _ => 1) i)
        ((fun _ => (1 : ℚ)) i))) ∧
    hgnnLaplacian (from_coo 1 1 [0] [0]) (fun _ => 1)
      = specHypergraphOperator (from_coo 1 1 [0] [0]) (fun _ => 1)
          (fun _ => 1) := by
  have hdeg1 : ∀ i, sumDim1 (from_coo 1 1 [0] [0]) i = 1 := by
    intro i
    fin_cases i
    rw [sumDim1_from_coo]
    norm_cast
  have hdeg0 : ∀ j, sumDim0 (from_coo 1 1 [0] [0]) j = 1 := by
    intro j
    fin_cases j
    rw [sumDim0_from_coo]
    norm_cast
  have h1 : ∀ i, 1 ≤ sumDim1 (from_coo 1 1 [0] [0]) i := by
    intro i; rw [hdeg1]
  have h2 : ∀ j, 1 ≤ sumDim0 (from_coo 1 1 [0] [0]) j := by
    intro j; rw [hdeg0]
  have h3 : ∀ i, IsInvSqrt (sumDim1 (from_coo 1 1 [0] [0]) i)
      ((fun _ => (1 : ℚ)) i) := by
    intro i
    rw [hdeg1]
    exact ⟨by norm_num, by norm_num⟩
  have h4 : ∀ i, IsInvSqrt
      (specRowDegree (from_coo 1 1 [0] [0]) (fun _ => 1) i)
      ((fun _ => (1 : ℚ)) i) := by
    intro i
    rw [specRowDegree_one, hdeg1]
    exact ⟨by norm_num, by norm_num⟩
  exact ⟨⟨h1, h2, h3, h4⟩,
    hgnn_operator_matches_spec_formula 1 1 [0] [0] h1 h2 _ _ h3 h4⟩

/-! ### C2: symmetry of the two operators

The hypergraph operator is always symmetric.  The plain-graph operator
`diag(s) · (A+I) · diag(s)` is symmetric only when `A` itself is symmetric:
a directed (asymmetric) relation with every row and column nonzero gives an
asymmetric operator, refuting the claim as stated for the `GCNLayer.forward`
form. -/

/-- An asymmetric 4×4 0/1 relation with every row and column of degree 3:
all pairs except `(1,0)`, `(2,1)`, `(0,2)` and `(3,3)`.  Every column sum of
`A+I` is 4, so the builder's scaling vector is the constant `1/2`. -/
def A4dir : Matrix (Fin 4) (Fin 4) ℚ :=
  from_coo 4 4 [0, 0, 0, 1, 1, 1, 2, 2, 2, 3, 3, 3]
    [0, 1, 3, 1, 2, 3, 0, 2, 3, 0, 1, 2]

/-- The symmetric complete 4×4 relation without self loops: every column sum
of `A+I` is 4, so the builder's scaling vector is the constant `1/2`. -/
def A4sym : Matrix (Fin 4) (Fin 4) ℚ :=
  from_coo 4 4 [0, 0, 0, 1, 1, 1, 2, 2, 2, 3, 3, 3]
    [1, 2, 3, 0, 2, 3, 0, 1, 3, 0, 1, 2]

/-- The scaling vector of `GCNLayer.forward` on `A4dir` is the constant
`1/2`. -/
theorem A4dir_scaling :
    ∀ j, IsInvSqrt (sumDim0 (A4dir + 1) j) ((fun _ => (1 : ℚ)/2) j) := by
  have hd : ∀ j, sumDim0 A4dir j = 3 := by
    intro j
    fin_cases j <;> · rw [A4dir, sumDim0_from_coo]; norm_cast
  intro j
  rw [sumDim0_add_one, hd]
  exact ⟨by norm_num, by norm_num⟩

/-- The scaling vector of `GCNLayer.forward` on `A4sym` is the constant
`1/2`. -/
theorem A4sym_scaling :
    ∀ j, IsInvSqrt (sumDim0 (A4sym + 1) j) ((fun _ => (1 : ℚ)/2) j) := by
  have hd : ∀ j, sumDim0 A4sym j = 3 := by
    intro j
    fin_cases j <;> · rw [A4sym, sumDim0_from_coo]; norm_cast
  intro j
  rw [sumDim0_add_one, hd]
  exact ⟨by norm_num, by norm_num⟩

/-- Counterexample to C2 as stated: `A4dir` has no zero-degree row or column
(all degrees are 3), its builder scaling is the constant `1/2`, yet the
plain-graph operator of `GCNLayer.forward` satisfies `L[0,1] = 1/4` while
`L[1,0] = 0`. -/
theorem gcn_operator_not_symmetric_counterexample :
    (∀ i, 1 ≤ sumDim1 A4dir i) ∧ (∀ j, 1 ≤ sumDim0 A4dir j) ∧
    (∀ j, IsInvSqrt (sumDim0 (A4dir + 1) j) ((fun _ => (1 : ℚ)/2) j)) ∧
    gcnOperator A4dir (fun _ => 1/2) 0 1 ≠ gcnOperator A4dir (fun _ => 1/2) 1 0 := by
  refine ⟨?_, ?_, A4dir_scaling, ?_⟩
  · intro i
    fin_cases i <;> · rw [A4dir, sumDim1_from_coo]; norm_cast
  · intro j
    fin_cases j <;> · rw [A4dir, sumDim0_from_coo]; norm_cast
  · rw [gcnOperator_apply, gcnOperator_apply]
    have h01 : A4dir 0 1 = 1 := by rw [A4dir, from_coo_apply]; norm_cast
    have h10 : A4dir 1 0 = 0 := by rw [A4dir, from_coo_apply]; norm_cast
    rw [h01, h10]
    norm_num

/-- C2 amended: for any relation with no zero-degree row or column, the
hypergraph operator of `HGNN.__init__` is symmetric, and the plain-graph
operator of `GCNLayer.forward` is symmetric provided the adjacency matrix
itself is symmetric (the amendment forced by the counterexample). -/
theorem operator_symmetry (n m nA : ℕ) (H : Matrix (Fin n) (Fin m) ℚ)
    (s : Fin n → ℚ)
    (_hrow : ∀ i, 1 ≤ sumDim1 H i) (_hcol : ∀ j, 1 ≤ sumDim0 H j)
    (_hs : ∀ i, IsInvSqrt (sumDim1 H i) (s i))
    (A : Matrix (Fin nA) (Fin nA) ℚ) (sA : Fin nA → ℚ)
    (_hsA : ∀ j, IsInvSqrt (sumDim0 (A + 1) j) (sA j))
    (hA : Aᵀ = A) :
    (hgnnLaplacian H s)ᵀ = hgnnLaplacian H s ∧
      (gcnOperator A sA)ᵀ = gcnOperator A sA := by
  constructor
  · simp [hgnnLaplacian, Matrix.transpose_mul, Matrix.diagonal_transpose,
      Matrix.transpose_transpose, Matrix.transpose_one, Matrix.mul_one,
      Matrix.one_mul, Matrix.mul_assoc]
  · simp [gcnOperator, Matrix.transpose_mul, Matrix.diagonal_transpose,
      Matrix.transpose_add, Matrix.transpose_one, hA, Matrix.mul_assoc]

/-- Witness for C2 amended: the 1×1 relation `[(0, 0)]` for the hypergraph
side and the symmetric relation `A4sym` for the plain-graph side. -/
theorem operator_symmetry_witness :
    ((∀ i, 1 ≤ sumDim1 (from_coo 1 1 [0] [0]) i) ∧
      (∀ j, 1 ≤ sumDim0 (from_coo 1 1 [0] [0]) j) ∧
      (∀ i, IsInvSqrt (sumDim1 (from_coo 1 1 [0] [0]) i)
        ((fun _ => (1 : ℚ)) i)) ∧
      (∀ j, IsInvSqrt (sumDim0 (A4sym + 1) j) ((fun _ => (1 : ℚ)/2) j)) ∧
      A4symᵀ = A4sym) ∧
    (hgnnLaplacian (from_coo 1 1 [0] [0]) (fun _ => 1))ᵀ
        = hgnnLaplacian (from_coo 1 1 [0] [0]) (fun _ => 1) ∧
      (gcnOperator A4sym (fun _ => 1/2))ᵀ = gcnOperator A4sym (fun _ => 1/2) := by
  have hdeg1 : ∀ i, sumDim1 (from_coo 1 1 [0] [0]) i = 1 := by
    intro i
    fin_cases i
    rw [sumDim1_from_coo]
    norm_cast
  have hdeg0 : ∀ j, sumDim0 (from_coo 1 1 [0] [0]) j = 1 := by
    intro j
    fin_cases j
    rw [sumDim0_from_coo]
    norm_cast
  have h1 : ∀ i, 1 ≤ sumDim1 (from_coo 1 1 [0] [0]) i := fun i => by rw [hdeg1]
  have h2 : ∀ j, 1 ≤ sumDim0 (from_coo 1 1 [0] [0]) j := fun j => by rw [hdeg0]
  have h3 : ∀ i, IsInvSqrt (sumDim1 (from_coo 1 1 [0] [0]) i)
      ((fun _ => (1 : ℚ)) i) := by
    intro i
    rw [hdeg1]
    exact ⟨by norm_num, by norm_num⟩
  have hAsym : A4symᵀ = A4sym := by
    ext i j
    rw [Matrix.transpose_apply, A4sym, from_coo_apply, from_coo_apply]
    fin_cases i <;> fin_cases j <;> norm_cast
  exact ⟨⟨h1, h2, h3, A4sym_scaling, hAsym⟩,
    operator_symmetry 1 1 4 (from_coo 1 1 [0] [0]) (fun _ => 1) h1 h2 h3
      A4sym (fun _ => 1/2) A4sym_scaling hAsym⟩

/-! ### C3: which degree the GCN builder uses

`GCNLayer.forward` computes `D_hat = dglsp.diag(A_hat.sum(0))`: the degree is
the *column* sum of `A+I` (the notebook's own printed output for the 11×5
incidence matrix fixes the orientation of `sum(0)`/`sum(1)`), while the claim
says *row* sum.  On an asymmetric adjacency the two give different
operators. -/

/-- The asymmetric 4×4 relation `{0,1,2} × {1,2,3}`: the row sums of `A+I`
are `[4,4,4,1]` while its column sums are `[1,4,4,4]`. -/
def A4tri : Matrix (Fin 4) (Fin 4) ℚ :=
  from_coo 4 4 [0, 0, 0, 1, 1, 1, 2, 2, 2] [1, 2, 3, 1, 2, 3, 1, 2, 3]

/-- Counterexample to C3 as stated: on `A4tri` the operator actually built by
`GCNLayer.forward` (scaling characterized on the column sums of `A+I`)
differs at entry `(0,1)` from the operator the claim describes (scaling
characterized on the row sums of `A+I`): `1/2` versus `1/4`. -/
theorem gcn_degree_is_not_rowsum_counterexample :
    (∀ j, IsInvSqrt (sumDim0 (A4tri + 1) j)
      ((fun j => if j = 0 then 1 else 1/2) j)) ∧
    (∀ i, IsInvSqrt (sumDim1 (A4tri + 1) i)
      ((fun i => if i = 3 then 1 else 1/2) i)) ∧
    gcnOperator A4tri (fun j => if j = 0 then 1 else 1/2) 0 1
      ≠ gcnOperator A4tri (fun i => if i = 3 then 1 else 1/2) 0 1 := by
  have hc0 : sumDim0 A4tri 0 = 0 := by rw [A4tri, sumDim0_from_coo]; norm_cast
  have hc1 : sumDim0 A4tri 1 = 3 := by rw [A4tri, sumDim0_from_coo]; norm_cast
  have hc2 : sumDim0 A4tri 2 = 3 := by rw [A4tri, sumDim0_from_coo]; norm_cast
  have hc3 : sumDim0 A4tri 3 = 3 := by rw [A4tri, sumDim0_from_coo]; norm_cast
  have hr0 : sumDim1 A4tri 0 = 3 := by rw [A4tri, sumDim1_from_coo]; norm_cast
  have hr1 : sumDim1 A4tri 1 = 3 := by rw [A4tri, sumDim1_from_coo]; norm_cast
  have hr2 : sumDim1 A4tri 2 = 3 := by rw [A4tri, sumDim1_from_coo]; norm_cast
  have hr3 : sumDim1 A4tri 3 = 0 := by rw [A4tri, sumDim1_from_coo]; norm_cast
  refine ⟨?_, ?_, ?_⟩
  · intro j
    rw [sumDim0_add_one]
    fin_cases j
    · show IsInvSqrt (sumDim0 A4tri 0 + 1) 1
      rw [hc0]; exact ⟨by norm_num, by norm_num⟩
    · show IsInvSqrt (sumDim0 A4tri 1 + 1) (1/2)
      rw [hc1]; exact ⟨by norm_num, by norm_num⟩
    · show IsInvSqrt (sumDim0 A4tri 2 + 1) (1/2)
      rw [hc2]; exact ⟨by norm_num, by norm_num⟩
    · show IsInvSqrt (sumDim0 A4tri 3 + 1) (1/2)
      rw [hc3]; exact ⟨by norm_num, by norm_num⟩
  · intro i
    rw [sumDim1_add_one]
    fin_cases i
    · show IsInvSqrt (sumDim1 A4tri 0 + 1) (1/2)
      rw [hr0]; exact ⟨by norm_num, by norm_num⟩
    · show IsInvSqrt (sumDim1 A4tri 1 + 1) (1/2)
      rw [hr1]; exact ⟨by norm_num, by norm_num⟩
    · show IsInvSqrt (sumDim1 A4tri 2 + 1) (1/2)
      rw [hr2]; exact ⟨by norm_num, by norm_num⟩
    · show IsInvSqrt (sumDim1 A4tri 3 + 1) 1
      rw [hr3]; exact ⟨by norm_num, by norm_num⟩
  · rw [gcnOperator_apply, gcnOperator_apply]
    have h01 : A4tri 0 1 = 1 := by rw [A4tri, from_coo_apply]; norm_cast
    rw [h01]
    norm_num
    rw [if_neg (show ¬(1 : Fin 4) = 3 from by decide),
      if_neg (show ¬(0 : Fin 4) = 3 from by decide)]
    norm_num

/-- C3 amended: `GCNLayer.forward` computes
`diag(degree)^(-1/2) · (A+I) · diag(degree)^(-1/2)` where the self loops are
added before the degree is computed and `degree[j]` is the *column* sum
`Σ_i (A+I)[i,j]` (namely `A_hat.sum(0)`), not the row sum. -/
theorem gcn_operator_colsum_formula (n : ℕ) (A : Matrix (Fin n) (Fin n) ℚ)
    (s : Fin n → ℚ)
    (_hs : ∀ j, IsInvSqrt (sumDim0 (A + 1) j) (s j)) :
    (∀ j, sumDim0 (A + 1) j = (∑ i, A i j) + 1) ∧
      gcnOperator A s
        = Matrix.of fun i j => s i * (A i j + if i = j then 1 else 0) * s j := by
  constructor
  · intro j
    rw [sumDim0_add_one]
    rfl
  · ext i j
    simp [gcnOperator_apply]

/-- Witness for C3 amended at `A4sym` with its constant scaling `1/2`. -/
theorem gcn_operator_colsum_formula_witness :
    (∀ j, IsInvSqrt (sumDim0 (A4sym + 1) j) ((fun _ => (1 : ℚ)/2) j)) ∧
    ((∀ j, sumDim0 (A4sym + 1) j = (∑ i, A4sym i j) + 1) ∧
      gcnOperator A4sym (fun _ => 1/2)
        = Matrix.of fun i j =>
            (1 : ℚ)/2 * (A4sym i j + if i = j then 1 else 0) * (1/2)) :=
  ⟨A4sym_scaling, gcn_operator_colsum_formula 4 A4sym _ A4sym_scaling⟩

/-! ### C4: sparsity pattern of the plain-graph operator -/

/-- C4: for every square adjacency relation with nonnegative (0/1) entries and
the builder's scaling vector, an entry of the `GCNLayer.forward` operator is
nonzero exactly on the union of the relation's nonzero pattern and the
diagonal; in particular every entry outside that union is zero. -/
theorem gcn_sparsity_pattern (n : ℕ) (A : Matrix (Fin n) (Fin n) ℚ)
    (s : Fin n → ℚ) (hpos : ∀ i j, 0 ≤ A i j)
    (hs : ∀ j, IsInvSqrt (sumDim0 (A + 1) j) (s j)) :
    ∀ i j, gcnOperator A s i j ≠ 0 ↔ (A i j ≠ 0 ∨ i = j) := by
  intro i j
  rw [gcnOperator_apply]
  have hsi : s i ≠ 0 := (hs i).s_ne_zero
  have hsj : s j ≠ 0 := (hs j).s_ne_zero
  by_cases hij : i = j
  · subst hij
    rw [if_pos rfl]
    constructor
    · intro _
      right
      rfl
    · intro _
      have hmid : (0 : ℚ) < A i i + 1 := by
        have := hpos i i
        linarith
      exact mul_ne_zero (mul_ne_zero hsi (ne_of_gt hmid)) hsi
  · rw [if_neg hij, add_zero]
    constructor
    · intro hne
      left
      intro hA
      apply hne
      rw [hA, mul_zero, zero_mul]
    · rintro (hA | hij2)
      · exact mul_ne_zero (mul_ne_zero hsi hA) hsj
      · exact absurd hij2 hij

/-- Witness for C4 at `A4sym` with its constant scaling `1/2`, evaluated at
the edge `(0, 1)`. -/
theorem gcn_sparsity_pattern_witness :
    ((∀ i j, 0 ≤ A4sym i j) ∧
      (∀ j, IsInvSqrt (sumDim0 (A4sym + 1) j) ((fun _ => (1 : ℚ)/2) j))) ∧
    (gcnOperator A4sym (fun _ => 1/2) 0 1 ≠ 0 ↔
      (A4sym 0 1 ≠ 0 ∨ (0 : Fin 4) = 1)) := by
  have hpos : ∀ i j, 0 ≤ A4sym i j := by
    intro i j
    rw [A4sym, from_coo_apply]
    exact Nat.cast_nonneg _
  exact ⟨⟨hpos, A4sym_scaling⟩,
    gcn_sparsity_pattern 4 A4sym _ hpos A4sym_scaling 0 1⟩

/-! ### C8: no division by zero under the degree precondition -/

/-- C8: if every row and column degree of the incidence matrix is at least 1
(and likewise every column degree of the plain adjacency), then none of the
quantities inverted by the two builders is zero — `d_V ** -0.5`,
`d_E ** -1` and `D_hat ** -0.5` are all applied to nonzero degrees, so in
exact arithmetic every entry of both operators is the finite value given by
the explicit entry formulas stated here (no non-finite value can arise). -/
theorem operator_entries_finite (n m nA : ℕ) (H : Matrix (Fin n) (Fin m) ℚ)
    (hrow : ∀ i, 1 ≤ sumDim1 H i) (hcol : ∀ j, 1 ≤ sumDim0 H j)
    (A : Matrix (Fin nA) (Fin nA) ℚ) (hdeg : ∀ j, 1 ≤ sumDim0 A j) :
    (∀ i, sumDim1 H i ≠ 0) ∧
    (∀ j, (sumDim0 H j)⁻¹ * sumDim0 H j = 1) ∧
    (∀ j, sumDim0 (A + 1) j ≠ 0) ∧
    (∀ s, (∀ i, IsInvSqrt (sumDim1 H i) (s i)) → ∀ i j,
      hgnnLaplacian H s i j
        = s i * (∑ k, H i k * (sumDim0 H k)⁻¹ * H j k) * s j) ∧
    (∀ sA, (∀ j, IsInvSqrt (sumDim0 (A + 1) j) (sA j)) → ∀ i j,
      gcnOperator A sA i j = sA i * (A i j + if i = j then 1 else 0) * sA j) := by
  refine ⟨?_, ?_, ?_, ?_, ?_⟩
  · intro i
    have := hrow i
    intro h0
    rw [h0] at this
    norm_num at this
  · intro j
    have h := hcol j
    have hne : sumDim0 H j ≠ 0 := by
      intro h0
      rw [h0] at h
      norm_num at h
    exact inv_mul_cancel₀ hne
  · intro j
    rw [sumDim0_add_one]
    have := hdeg j
    intro h0
    linarith
  · intro s _ i j
    exact hgnnLaplacian_apply H s i j
  · intro sA _ i j
    exact gcnOperator_apply A sA i j

/-- Witness for C8 at the 1×1 relation `[(0, 0)]` on both sides. -/
theorem operator_entries_finite_witness :
    ((∀ i, 1 ≤ sumDim1 (from_coo 1 1 [0] [0]) i) ∧
      (∀ j, 1 ≤ sumDim0 (from_coo 1 1 [0] [0]) j)) ∧
    ((∀ i, sumDim1 (from_coo 1 1 [0] [0]) i ≠ 0) ∧
      (∀ j, (sumDim0 (from_coo 1 1 [0] [0]) j)⁻¹
        * sumDim0 (from_coo 1 1 [0] [0]) j = 1) ∧
      (∀ j, sumDim0 (from_coo 1 1 [0] [0] + 1) j ≠ 0) ∧
      (∀ s, (∀ i, IsInvSqrt (sumDim1 (from_coo 1 1 [0] [0]) i) (s i)) →
        ∀ i j, hgnnLaplacian (from_coo 1 1 [0] [0]) s i j
          = s i * (∑ k, from_coo 1 1 [0] [0] i k
              * (sumDim0 (from_coo 1 1 [0] [0]) k)⁻¹
              * from_coo 1 1 [0] [0] j k) * s j) ∧
      (∀ sA, (∀ j, IsInvSqrt (sumDim0 (from_coo 1 1 [0] [0] + 1) j) (sA j)) →
        ∀ i j, gcnOperator (from_coo 1 1 [0] [0]) sA i j
          = sA i * (from_coo 1 1 [0] [0] i j + if i = j then 1 else 0)
              * sA j)) := by
  have hdeg1 : ∀ i, sumDim1 (from_coo 1 1 [0] [0]) i = 1 := by
    intro i
    fin_cases i
    rw [sumDim1_from_coo]
    norm_cast
  have hdeg0 : ∀ j, sumDim0 (from_coo 1 1 [0] [0]) j = 1 := by
    intro j
    fin_cases j
    rw [sumDim0_from_coo]
    norm_cast
  have h1 : ∀ i, 1 ≤ sumDim1 (from_coo 1 1 [0] [0]) i := fun i => by rw [hdeg1]
  have h2 : ∀ j, 1 ≤ sumDim0 (from_coo 1 1 [0] [0]) j := fun j => by rw [hdeg0]
  exact ⟨⟨h1, h2⟩,
    operator_entries_finite 1 1 1 (from_coo 1 1 [0] [0]) h1 h2
      (from_coo 1 1 [0] [0]) h2⟩

/-! ### C10: self loops make the GCN degrees at least 1 -/

/-- C10: for every square 0/1 adjacency matrix, with no precondition on its
degrees, every degree computed by `GCNLayer.forward` — a column sum of the
augmented matrix `A+I`, taken after the self loops are added — is at least 1
and in particular nonzero, so the builder never inverts a zero degree even
when the graph has isolated nodes. -/
theorem gcn_selfloop_degree_ge_one (n : ℕ) (A : Matrix (Fin n) (Fin n) ℚ)
    (h01 : ∀ i j, A i j = 0 ∨ A i j = 1) :
    ∀ j, 1 ≤ sumDim0 (A + 1) j ∧ sumDim0 (A + 1) j ≠ 0 := by
  intro j
  have hnn : (0 : ℚ) ≤ sumDim0 A j := by
    apply Finset.sum_nonneg
    intro i _
    rcases h01 i j with h | h <;> simp [h]
  constructor
  · rw [sumDim0_add_one]
    linarith
  · rw [sumDim0_add_one]
    intro h0
    linarith

/-- Witness for C10 at the empty 2×2 relation (two isolated nodes). -/
theorem gcn_selfloop_degree_ge_one_witness :
    (∀ i j, from_coo 2 2 [] [] i j = 0 ∨ from_coo 2 2 [] [] i j = 1) ∧
    (1 ≤ sumDim0 (from_coo 2 2 [] [] + 1) 0 ∧
      sumDim0 (from_coo 2 2 [] [] + 1) 0 ≠ 0) := by
  have h01 : ∀ i j, from_coo 2 2 [] [] i j = 0 ∨ from_coo 2 2 [] [] i j = 1 := by
    intro i j
    left
    rw [from_coo_apply]
    norm_num
  exact ⟨h01, gcn_selfloop_degree_ge_one 2 (from_coo 2 2 [] []) h01 0⟩

/-! ### The sparse attention of `graph_transformer.ipynb` -/

/-- Modelled from the spec: the batched sampled dense-dense matrix multiply
`dglsp.bsddmm(A, q, k.transpose(1, 0))` called by `SparseMHA.forward` — its
kernel is part of the DGL repository (`dgl.sparse`) but not under `src/`.
Per the spec, the dense dot product of query row `i` and key column `j` is
masked by (multiplied with) the sparse entry `A[i,j]`, so scores exist only
on `A`'s nonzero pattern.  Shapes follow the notebook: `q : [N, dh, nh]`,
`k.transpose(1, 0) : [dh, N, nh]`, one slice per head `h`. -/
def bsddmm {N dh nh : ℕ} (A : Matrix (Fin N) (Fin N) ℚ)
    (q : Fin N → Fin dh → Fin nh → ℚ) (kt : Fin dh → Fin N → Fin nh → ℚ)
    (h : Fin nh) : Matrix (Fin N) (Fin N) ℚ :=
  Matrix.of fun i j => A i j * ∑ t, q i t h * kt t j h

/-- Modelled from the spec: the sparse softmax `attn.softmax()` called by
`SparseMHA.forward` (kernel in `dgl.sparse`, not under `src/`): on each row,
the softmax is normalized over the stored (nonzero-pattern) entries of that
row only, and entries outside the pattern stay zero.  The exponential is an
arbitrary strictly positive function `ex`, a parameter standing for the real
`exp`; the theorems below hold for every such `ex`. -/
def sparseSoftmax {N : ℕ} (ex : ℚ → ℚ) (A S : Matrix (Fin N) (Fin N) ℚ) :
    Matrix (Fin N) (Fin N) ℚ :=
  Matrix.of fun i j =>
    if A i j = 0 then 0
    else ex (S i j)
      / ∑ j' ∈ Finset.univ.filter (fun j' => A i j' ≠ 0), ex (S i j')

/-- The 3-node graph whose edge set contains only the three self loops. -/
def A3 : Matrix (Fin 3) (Fin 3) ℚ := from_coo 3 3 [0, 1, 2] [0, 1, 2]

/-- The self-loop-only adjacency is the identity matrix. -/
theorem A3_eq_one : A3 = 1 := by
  ext i j
  rw [A3, from_coo_apply, Matrix.one_apply]
  by_cases hij : i = j
  · subst hij
    rw [if_pos rfl]
    fin_cases i <;> norm_cast
  · rw [if_neg hij]
    fin_cases i <;> fin_cases j <;>
      first
      | exact absurd rfl hij
      | norm_cast

/-- Each row of the self-loop-only adjacency has exactly one stored entry,
the diagonal one. -/
theorem A3_support (i : Fin 3) :
    Finset.univ.filter (fun j' => A3 i j' ≠ 0) = {i} := by
  ext j'
  simp only [Finset.mem_filter, Finset.mem_univ, true_and,
    Finset.mem_singleton, A3_eq_one, Matrix.one_apply]
  constructor
  · intro hne
    by_contra hji
    exact hne (if_neg fun h => hji h.symm)
  · rintro rfl
    rw [if_pos rfl]
    norm_num

/-- C6: on the 3-node self-loop-only graph, the masked attention of
`SparseMHA.forward` — SDDMM scores restricted to the adjacency pattern
followed by the row-wise sparse softmax — assigns weight exactly 1 to the
diagonal entry of every row, for every choice of query and key tensors,
every strictly positive exponential, and every attention head. -/
theorem selfloop_attention_weight_one (dh nh : ℕ)
    (q : Fin 3 → Fin dh → Fin nh → ℚ) (kt : Fin dh → Fin 3 → Fin nh → ℚ)
    (ex : ℚ → ℚ) (hex : ∀ x, 0 < ex x) (h : Fin nh) (i : Fin 3) :
    sparseSoftmax ex A3 (bsddmm A3 q kt h) i i = 1 := by
  have hAii : A3 i i ≠ 0 := by
    rw [A3_eq_one, Matrix.one_apply, if_pos rfl]
    norm_num
  unfold sparseSoftmax
  simp only [Matrix.of_apply]
  rw [if_neg hAii, A3_support i, Finset.sum_singleton]
  exact div_self (ne_of_gt (hex _))

/-- Witness for C6 with one head, one feature dimension, zero query/key
tensors and the constant exponential 1, at row 0. -/
theorem selfloop_attention_weight_one_witness :
    (∀ x : ℚ, 0 < (fun _ => (1 : ℚ)) x) ∧
    sparseSoftmax (fun _ => 1) A3
      (bsddmm A3 (fun (_ : Fin 3) (_ : Fin 1) (_ : Fin 1) => (0 : ℚ))
        (fun (_ : Fin 1) (_ : Fin 3) (_ : Fin 1) => (0 : ℚ)) (0 : Fin 1))
      0 0 = 1 := by
  have hex : ∀ x : ℚ, 0 < (fun _ => (1 : ℚ)) x := fun x => by norm_num
  exact ⟨hex,
    selfloop_attention_weight_one 1 1 (fun _ _ _ => 0) (fun _ _ _ => 0)
      (fun _ => 1) hex 0 0⟩

/-- C7: the attention matrix of `SparseMHA.forward` has nonzero entries only
at index pairs in the graph's edge set: at any pair where the adjacency entry
is zero, both the SDDMM score matrix and the softmax output are zero. -/
theorem attention_restricted_to_edges (N dh nh : ℕ)
    (A : Matrix (Fin N) (Fin N) ℚ) (q : Fin N → Fin dh → Fin nh → ℚ)
    (kt : Fin dh → Fin N → Fin nh → ℚ) (ex : ℚ → ℚ) (h : Fin nh)
    (i j : Fin N) (hij : A i j = 0) :
    bsddmm A q kt h i j = 0 ∧
      sparseSoftmax ex A (bsddmm A q kt h) i j = 0 := by
  constructor
  · unfold bsddmm
    simp only [Matrix.of_apply]
    rw [hij, zero_mul]
  · unfold sparseSoftmax
    simp only [Matrix.of_apply]
    rw [if_pos hij]

/-- Witness for C7 on the empty 1-node graph at the pair `(0, 0)`. -/
theorem attention_restricted_to_edges_witness :
    from_coo 1 1 [] [] 0 0 = 0 ∧
    (bsddmm (from_coo 1 1 [] [])
        (fun (_ : Fin 1) (_ : Fin 1) (_ : Fin 1) => (0 : ℚ))
        (fun (_ : Fin 1) (_ : Fin 1) (_ : Fin 1) => (0 : ℚ))
        (0 : Fin 1) 0 0 = 0 ∧
      sparseSoftmax (fun _ => 1) (from_coo 1 1 [] [])
        (bsddmm (from_coo 1 1 [] [])
          (fun (_ : Fin 1) (_ : Fin 1) (_ : Fin 1) => (0 : ℚ))
          (fun (_ : Fin 1) (_ : Fin 1) (_ : Fin 1) => (0 : ℚ))
          (0 : Fin 1)) 0 0 = 0) := by
  have hij : from_coo 1 1 [] [] (0 : Fin 1) (0 : Fin 1) = 0 := by
    rw [from_coo_apply]
    norm_num
  exact ⟨hij,
    attention_restricted_to_edges 1 1 1 (from_coo 1 1 [] [])
      (fun _ _ _ => 0) (fun _ _ _ => 0) (fun _ => 1) 0 0 0 hij⟩

/-! ### C9: isolated nodes and non-finite values (spec-modelled)

The float arithmetic of the sparse kernels used by `HGNN.__init__`
(`dglsp.diag`, the elementwise `**`, and sparse `@`) lives in `dgl.sparse`,
which is part of the DGL repository but not under `src/`.  Following the
spec's description — division by zero in the degree-inverse scaling produces
a non-finite factor that appears in the resulting operator and propagates
through subsequent computation — scalars are modelled as `Option ℚ`, with
`none` marking a non-finite value that propagates through `+` and `*`. -/

/-- Modelled from the spec: non-finite-propagating addition. -/
def eAdd : Option ℚ → Option ℚ → Option ℚ
  | some a, some b => some (a + b)
  | _, _ => none

/-- Modelled from the spec: non-finite-propagating multiplication. -/
def eMul : Option ℚ → Option ℚ → Option ℚ
  | some a, some b => some (a * b)
  | _, _ => none

/-- Modelled from the spec: sum of a list of possibly non-finite scalars. -/
def eSum : List (Option ℚ) → Option ℚ
  | [] => some 0
  | x :: xs => eAdd x (eSum xs)

/-- Modelled from the spec: the float `d ** -1` of the hyperedge-degree
scaling, non-finite exactly on a zero degree. -/
def eInv (d : ℚ) : Option ℚ := if d = 0 then none else some d⁻¹

/-- Modelled from the spec: the float `d ** -0.5` of the node-degree scaling,
non-finite exactly on a zero degree; on a nonzero degree its finite value `s`
is supplied by the caller (characterized by `IsInvSqrt` when rational). -/
def ePowNegHalf (d s : ℚ) : Option ℚ := if d = 0 then none else some s

/-- Modelled from the spec: the entry at `(i, j)` of the HGNN operator
`D_v^{-1/2} · H · B · D_e^{-1} · Hᵀ · D_v^{-1/2}` (with `B` the identity)
under non-finite propagation; `sv` is the diagonal of `d_V ** -0.5`. -/
def hgnnOperatorE {n m : ℕ} (H : Matrix (Fin n) (Fin m) ℚ)
    (sv : Fin n → Option ℚ) (i j : Fin n) : Option ℚ :=
  eMul (eMul (sv i)
    (eSum (List.ofFn fun k =>
      eMul (eMul (some (H i k)) (eInv (sumDim0 H k))) (some (H j k)))))
    (sv j)

theorem eMul_none_left (x : Option ℚ) : eMul none x = none := by
  cases x <;> rfl

/-- The 2×1 incidence relation `[(0, 0)]`: node 1 is isolated (degree 0). -/
def H2iso : Matrix (Fin 2) (Fin 1) ℚ := from_coo 2 1 [0] [0]

/-- C9 (spec-modelled): on an incidence relation with an isolated node, the
operator built by `HGNN.__init__` contains non-finite values.  Node 1 of
`H2iso` has degree 0, so its `d_V ** -0.5` scaling factor is non-finite, and
the modelled operator's entries `(1,0)` and `(1,1)` are non-finite; the
finite scaling of node 0 is the genuine inverse square root of its degree. -/
theorem isolated_node_nonfinite :
    sumDim1 H2iso 1 = 0 ∧
    IsInvSqrt (sumDim1 H2iso 0) ((fun _ => (1 : ℚ)) (0 : Fin 2)) ∧
    hgnnOperatorE H2iso
      (fun i => ePowNegHalf (sumDim1 H2iso i) ((fun _ => (1 : ℚ)) i)) 1 0
      = none ∧
    hgnnOperatorE H2iso
      (fun i => ePowNegHalf (sumDim1 H2iso i) ((fun _ => (1 : ℚ)) i)) 1 1
      = none := by
  have h1 : sumDim1 H2iso 1 = 0 := by rw [H2iso, sumDim1_from_coo]; norm_cast
  have h0 : sumDim1 H2iso 0 = 1 := by rw [H2iso, sumDim1_from_coo]; norm_cast
  have hsv1 : ePowNegHalf (sumDim1 H2iso 1) 1 = none := by
    rw [h1, ePowNegHalf, if_pos rfl]
  refine ⟨h1, ?_, ?_, ?_⟩
  · rw [h0]
    exact ⟨by norm_num, by norm_num⟩
  · unfold hgnnOperatorE
    rw [show (fun i => ePowNegHalf (sumDim1 H2iso i) ((fun _ => (1 : ℚ)) i))
        (1 : Fin 2) = none from hsv1]
    rw [eMul_none_left, eMul_none_left]
  · unfold hgnnOperatorE
    rw [show (fun i => ePowNegHalf (sumDim1 H2iso i) ((fun _ => (1 : ℚ)) i))
        (1 : Fin 2) = none from hsv1]
    rw [eMul_none_left, eMul_none_left]

end DglSparse
